import Mathlib

/-!
Verification of the claude-homeassistant repository: the selective
synchronization policy engine (rule classification, sync planning, mirror
apply) and the configuration-reload tool (`tools/reload_config.py`).

The synchronization engine itself ships as rsync exclude files plus an
rsync invocation; only its integration tests are in the repository source.
Its data model and algorithms below are therefore modelled from the spec
(sections 3, 4.1, 4.3, 4.4, 4.5), faithful to the spec's words, and the
scenario trees mirror `tests/test_rsync_excludes.py`.  The reload tool is
embedded directly from `tools/reload_config.py`.
-/

set_option autoImplicit false

namespace HASync

/-- Modelled from the spec: a Path is a normalized, slash-separated relative
path from a tree root, represented as its list of segments (never absolute,
no `..` segments). -/
abbrev Path := List String

/-- Modelled from the spec: rule actions EXCLUDE, PROTECT, ALLOW. -/
inductive Action where
  | EXCLUDE
  | PROTECT
  | ALLOW
deriving DecidableEq

/-- Modelled from the spec: sync actions COPY, DELETE, SKIP. -/
inductive SyncAction where
  | COPY
  | DELETE
  | SKIP
deriving DecidableEq

/-- Modelled from the spec: entry kind FILE or DIR. -/
inductive EKind where
  | FILE
  | DIR
deriving DecidableEq

/-- Modelled from the spec: an Entry has a kind and an opaque comparable
fingerprint; two entries are identical iff kind and fingerprint match
(structural equality here). -/
structure Entry where
  kind : EKind
  fp : String
deriving DecidableEq

/-- Modelled from the spec: a Rule is a path pattern plus an action.  The
pattern is a directory-style path given by segments. -/
structure Rule where
  pattern : Path
  action : Action
deriving DecidableEq

/-- Modelled from the spec: a pattern matches the directory node itself plus
every path beginning with that directory's path followed by a separator;
segment-wise matching makes partial name collisions (`backups2` vs `backups`)
impossible. -/
def ruleMatches (r : Rule) (p : Path) : Bool :=
  r.pattern.isPrefixOf p

/-- Modelled from the spec: `classify` evaluates rules in order and returns
the action of the first rule whose pattern matches, `ALLOW` if no rule
matches (first-match semantics, implicit trailing ALLOW). -/
def classify (rules : List Rule) (p : Path) : Action :=
  match rules with
  | [] => Action.ALLOW
  | r :: rest => if ruleMatches r p then r.action else classify rest p

/-- Modelled from the spec: a Tree Listing maps Paths to Entries; it is kept
as an association list whose well-formed instances have unique keys. -/
abbrev Tree := List (Path × Entry)

/-- First-match association lookup in a tree listing. -/
def lookupEntry (t : Tree) (p : Path) : Option Entry :=
  match t with
  | [] => none
  | (q, e) :: rest => if q = p then some e else lookupEntry rest p

/-- The paths (keys) of a tree listing. -/
def keys (t : Tree) : List Path :=
  t.map Prod.fst

/-- Modelled from the spec, Sync Planner step 1: for a source entry, EXCLUDE
gives SKIP; otherwise the path is COPY when absent from the destination or
present but not identical, SKIP when present and identical. -/
def planSourceItem (rules : List Rule) (dest : Tree) (pe : Path × Entry) :
    Path × SyncAction :=
  if classify rules pe.1 = Action.EXCLUDE then (pe.1, SyncAction.SKIP)
  else
    match lookupEntry dest pe.1 with
    | some e2 => if pe.2 = e2 then (pe.1, SyncAction.SKIP) else (pe.1, SyncAction.COPY)
    | none => (pe.1, SyncAction.COPY)

/-- Modelled from the spec, Sync Planner step 2: a destination-only entry is
SKIP when classified EXCLUDE or PROTECT (never deleted) and DELETE
otherwise. -/
def planDestItem (rules : List Rule) (pe : Path × Entry) : Path × SyncAction :=
  match classify rules pe.1 with
  | Action.ALLOW => (pe.1, SyncAction.DELETE)
  | Action.EXCLUDE => (pe.1, SyncAction.SKIP)
  | Action.PROTECT => (pe.1, SyncAction.SKIP)

/-- Modelled from the spec: the Sync Plan is computed in full before any
mutation: step 1 over every source path, then step 2 over every destination
path absent from the source. -/
def plan (source dest : Tree) (rules : List Rule) : List (Path × SyncAction) :=
  source.map (planSourceItem rules dest)
    ++ (dest.filter (fun pe => (lookupEntry source pe.1).isNone)).map (planDestItem rules)

/-- Remove every entry of one path from a tree listing. -/
def removeKey (t : Tree) (p : Path) : Tree :=
  match t with
  | [] => []
  | (q, e) :: rest => if q = p then removeKey rest p else (q, e) :: removeKey rest p

/-- Replace the entry of one path wherever it occurs in a tree listing. -/
def updateKey (t : Tree) (p : Path) (e : Entry) : Tree :=
  match t with
  | [] => []
  | (q, e2) :: rest =>
    if q = p then (p, e) :: updateKey rest p e else (q, e2) :: updateKey rest p e

/-- Insert-or-update of one path in a tree listing. -/
def upsert (t : Tree) (p : Path) (e : Entry) : Tree :=
  if (lookupEntry t p).isSome then updateKey t p e else t ++ [(p, e)]

/-- Modelled from the spec, Sync Executor: apply a single plan item to the
destination tree.  COPY creates/updates the destination from the source,
DELETE removes the path from the destination, SKIP changes nothing. -/
def applyItem (source : Tree) (dest : Tree) (pa : Path × SyncAction) : Tree :=
  match pa.2 with
  | SyncAction.SKIP => dest
  | SyncAction.DELETE => removeKey dest pa.1
  | SyncAction.COPY =>
    match lookupEntry source pa.1 with
    | some e => upsert dest pa.1 e
    | none => dest

/-- Modelled from the spec: apply the whole plan in order, mirroring
deletions on the destination except where the plan skipped. -/
def applyPlan (pl : List (Path × SyncAction)) (source dest : Tree) : Tree :=
  pl.foldl (applyItem source) dest

/-- A file entry with the given content fingerprint. -/
def file (fp : String) : Entry :=
  { kind := EKind.FILE, fp := fp }

/-- Modelled from the spec: the Pull Rule Set (the repository's
`.rsync-excludes-pull` file is not part of the source tree): secrets and
credentials (`.storage/auth`) are excluded entirely, backups are excluded,
and everything else (including general settings storage) transfers
normally. -/
def pullRules : List Rule :=
  [ { pattern := [".storage", "auth"], action := Action.EXCLUDE },
    { pattern := ["backups"], action := Action.EXCLUDE } ]

/-- Modelled from the spec: the Push Rule Set (the repository's
`.rsync-excludes-push` file is not part of the source tree): remote-only
runtime state — auth/session storage, backups, user media, installed
add-ons — is protected from deletion or overwrite even when absent or
different locally, which in the rule model is the EXCLUDE action. -/
def pushRules : List Rule :=
  [ { pattern := [".storage"], action := Action.EXCLUDE },
    { pattern := ["backups"], action := Action.EXCLUDE },
    { pattern := ["www"], action := Action.EXCLUDE },
    { pattern := ["custom_components"], action := Action.EXCLUDE } ]

/-- The remote tree of the pull scenario: a secret token file, a non-secret
storage file, a backup archive, and the two config files. -/
def pullRemote : Tree :=
  [ ([".storage", "auth", "tokens.json"], file "SECRET_AUTH_TOKEN"),
    ([".storage", "core", "entity_registry"], file "entity_registry_v1"),
    (["backups", "backup.tar"], file "backup_data"),
    (["configuration.yaml"], file "homeassistant: old"),
    (["automations.yaml"], file "automation: old") ]

/-- The local tree after pulling `pullRemote` into an empty local tree. -/
def pullResult : Tree :=
  applyPlan (plan pullRemote [] pullRules) pullRemote []

/-- The local tree of the push scenario: updated config files and a locally
updated copy of a storage file. -/
def pushLocal : Tree :=
  [ ([".storage", "core", "entity_registry"], file "entity_registry_v2_updated"),
    (["configuration.yaml"], file "homeassistant: NEW"),
    (["automations.yaml"], file "automation: NEW") ]

/-- The remote tree of the push scenario: stale config files plus runtime
state under `.storage`, `backups`, `www`, `custom_components`. -/
def pushRemote : Tree :=
  [ ([".storage", "auth", "tokens.json"], file "SECRET_AUTH_TOKEN"),
    ([".storage", "core", "entity_registry"], file "entity_registry_v1"),
    (["backups", "backup.tar"], file "backup_data"),
    (["www", "index.html"], file "<html>dashboard</html>"),
    (["custom_components", "my_comp.py"], file "custom_code"),
    (["configuration.yaml"], file "homeassistant: old"),
    (["automations.yaml"], file "automation: old") ]

/-- The remote tree after pushing `pushLocal` onto `pushRemote`. -/
def pushResult : Tree :=
  applyPlan (plan pushLocal pushRemote pushRules) pushLocal pushRemote

end HASync

namespace ReloadTool

/-- The process environment (`os.environ`/`os.getenv`): a map from variable
names to optional values. -/
def Env : Type := String → Option String

/-- `os.getenv(key, dflt)`. -/
def getenv (env : Env) (key dflt : String) : String :=
  (env key).getD dflt

/-- `os.environ[key] = value`. -/
def setEnv (env : Env) (key value : String) : Env :=
  fun k => if k = key then some value else env k

/-- Python `str.strip()` on a character list: drop whitespace from both
ends. -/
def pyStrip (cs : List Char) : List Char :=
  ((cs.dropWhile Char.isWhitespace).reverse.dropWhile Char.isWhitespace).reverse

/-- Python `str.strip(c)` for a single character: drop every leading and
trailing occurrence of `c`. -/
def stripChar (c : Char) (cs : List Char) : List Char :=
  ((cs.dropWhile (· == c)).reverse.dropWhile (· == c)).reverse

/-- The double-quote character. -/
def dquote : Char := Char.ofNat 34

/-- The single-quote character. -/
def squote : Char := Char.ofNat 39

/-- Python `line.split("=", 1)`: split at the first `=` sign, `none` when the
line has no `=` character. -/
def breakAtEq : List Char → Option (List Char × List Char)
  | [] => none
  | c :: rest =>
    if c = '=' then some ([], rest)
    else
      match breakAtEq rest with
      | some (a, b) => some (c :: a, b)
      | none => none

/-- One line of the `.env` file, as parsed by `load_env_file`: the stripped
line is used only when it is non-empty, does not start with `#`, and
contains `=`; the key is stripped and the value is stripped of whitespace,
then of double quotes, then of single quotes. -/
def parseEnvLine (line : String) : Option (String × String) :=
  let l := pyStrip line.toList
  if l.isEmpty then none
  else if l.headD ' ' = '#' then none
  else
    match breakAtEq l with
    | none => none
    | some (k, v) =>
      some (String.mk (pyStrip k),
            String.mk (stripChar squote (stripChar dquote (pyStrip v))))

/-- Processing of one `.env` line: a parsed assignment updates the
environment, every other line leaves it unchanged. -/
def applyEnvLine (env : Env) (line : String) : Env :=
  match parseEnvLine line with
  | some (k, v) => setEnv env k v
  | none => env

/-- The loop body of `load_env_file` over the lines of an existing file. -/
def load_env_lines (lines : List String) (env : Env) : Env :=
  lines.foldl applyEnvLine env

/-- `load_env_file`: when no `.env` file exists (`none`) the environment is
returned unchanged; otherwise each line is processed in order. -/
def load_env_file (file : Option (List String)) (env : Env) : Env :=
  match file with
  | none => env
  | some lines => load_env_lines lines env

/-- Whether a `.env` line assigns the given key. -/
def assignsKey (line : String) (key : String) : Bool :=
  match parseEnvLine line with
  | some kv => kv.1 == key
  | none => false

/-- Outcome of one `requests.post` call: an HTTP response with status code
and body text, or one of the exceptions `reload_config` catches. -/
inductive HttpOutcome where
  | Response (status : Nat) (text : String)
  | Timeout
  | ConnError
  | OtherError
deriving DecidableEq

/-- The exceptions that can escape the request loop of `reload_config`. -/
inductive ReloadExn where
  | timeout
  | connError
  | otherError
deriving DecidableEq

/-- The fixed list of named reload services of `reload_config`. -/
def reload_endpoints : List (String × String) :=
  [ ("core configuration", "homeassistant/reload_core_config"),
    ("automations", "automation/reload"),
    ("scripts", "script/reload"),
    ("scenes", "scene/reload") ]

/-- The URL of one reload service: `f"{ha_url}/api/services/{service}"`. -/
def serviceUrl (base service : String) : String :=
  base ++ "/api/services/" ++ service

/-- The default base URL used when `HA_URL` is absent. -/
def defaultHaUrl : String := "http://homeassistant.local:8123"

/-- Observable trace of one `reload_config` run: the URLs posted in order,
the per-service success/failure reports printed by the request loop, and the
returned boolean. -/
structure ReloadTrace where
  requests : List String
  reports : List (String × Bool)
  result : Bool
deriving DecidableEq

/-- The request loop of `reload_config`: posts to each service in order;
a response records a per-service report and continues with the running
conjunction `all_ok`; a timeout, connection error or other exception aborts
the loop immediately, carrying the exception out to the handler. -/
def runServices (http : String → HttpOutcome) (base : String) :
    List (String × String) → Bool → List String × List (String × Bool) × Except ReloadExn Bool
  | [], allOk => ([], [], Except.ok allOk)
  | (name, service) :: rest, allOk =>
    match http (serviceUrl base service) with
    | HttpOutcome.Response code _ =>
      (serviceUrl base service :: (runServices http base rest (allOk && (code == 200))).1,
       (name, code == 200) :: (runServices http base rest (allOk && (code == 200))).2.1,
       (runServices http base rest (allOk && (code == 200))).2.2)
    | HttpOutcome.Timeout => ([serviceUrl base service], [], Except.error ReloadExn.timeout)
    | HttpOutcome.ConnError => ([serviceUrl base service], [], Except.error ReloadExn.connError)
    | HttpOutcome.OtherError => ([serviceUrl base service], [], Except.error ReloadExn.otherError)

/-- The base URL a run with this environment and `.env` file uses:
`os.getenv("HA_URL", "http://homeassistant.local:8123")` after
`load_env_file()`. -/
def haUrlOf (envInit : Env) (file : Option (List String)) : String :=
  getenv (load_env_file file envInit) "HA_URL" defaultHaUrl

/-- The token a run with this environment and `.env` file uses:
`os.getenv("HA_TOKEN", "")` after `load_env_file()`. -/
def tokenOf (envInit : Env) (file : Option (List String)) : String :=
  getenv (load_env_file file envInit) "HA_TOKEN" ""

/-- `reload_config`: loads the `.env` file, reads `HA_URL` (with the fixed
default) and `HA_TOKEN` (hard error when empty/absent, before any request),
then runs the request loop; every caught exception yields overall `false`. -/
def reload_config (envInit : Env) (file : Option (List String))
    (http : String → HttpOutcome) : ReloadTrace :=
  if tokenOf envInit file = "" then { requests := [], reports := [], result := false }
  else
    { requests := (runServices http (haUrlOf envInit file) reload_endpoints true).1,
      reports := (runServices http (haUrlOf envInit file) reload_endpoints true).2.1,
      result := match (runServices http (haUrlOf envInit file) reload_endpoints true).2.2 with
        | Except.ok b => b
        | Except.error _ => false }

/-- The lines of an optional `.env` file. -/
def linesOf : Option (List String) → List String
  | none => []
  | some lines => lines

/-- A concrete environment holding only `HA_TOKEN`, for witnesses. -/
def envTokenOnly : Env :=
  fun k => if k = "HA_TOKEN" then some "token123" else none

/-- A concrete empty environment, for witnesses. -/
def envEmpty : Env :=
  fun _ => none

end ReloadTool

namespace HASync

/-- C1: pull scenario (data-leak avoidance).  Pulling the remote tree with
`.storage/auth/tokens.json`, `.storage/core/entity_registry`,
`backups/backup.tar` and the config files into an empty local tree yields a
local tree where the auth tokens are absent, the entity registry is present
with exactly the remote content, the backup archive is absent, and both
config files are present. -/
theorem pull_scenario_data_leak_avoidance :
    lookupEntry pullResult [".storage", "auth", "tokens.json"] = none
    ∧ lookupEntry pullResult [".storage", "core", "entity_registry"]
        = some (file "entity_registry_v1")
    ∧ lookupEntry pullResult ["backups", "backup.tar"] = none
    ∧ lookupEntry pullResult ["configuration.yaml"] = some (file "homeassistant: old")
    ∧ lookupEntry pullResult ["automations.yaml"] = some (file "automation: old") := by
  decide

/-- C2: push scenario (data-loss avoidance).  Pushing the updated local
config files onto the remote tree updates exactly the two config files while
leaving `.storage` byte-for-byte unchanged and keeping the `backups`, `www`
and `custom_components` entries present. -/
theorem push_scenario_data_loss_avoidance :
    lookupEntry pushResult ["configuration.yaml"] = some (file "homeassistant: NEW")
    ∧ lookupEntry pushResult ["automations.yaml"] = some (file "automation: NEW")
    ∧ lookupEntry pushResult [".storage", "auth", "tokens.json"]
        = some (file "SECRET_AUTH_TOKEN")
    ∧ lookupEntry pushResult [".storage", "core", "entity_registry"]
        = some (file "entity_registry_v1")
    ∧ lookupEntry pushResult ["backups", "backup.tar"] = some (file "backup_data")
    ∧ lookupEntry pushResult ["www", "index.html"] = some (file "<html>dashboard</html>")
    ∧ lookupEntry pushResult ["custom_components", "my_comp.py"] = some (file "custom_code") := by
  decide

theorem planSourceItem_fst (rules : List Rule) (d : Tree) (pe : Path × Entry) :
    (planSourceItem rules d pe).1 = pe.1 := by
  unfold planSourceItem
  split
  · rfl
  · split
    · split <;> rfl
    · rfl

theorem planDestItem_fst (rules : List Rule) (pe : Path × Entry) :
    (planDestItem rules pe).1 = pe.1 := by
  unfold planDestItem
  split <;> rfl

theorem planSourceItem_snd_ne_delete (rules : List Rule) (d : Tree) (pe : Path × Entry) :
    (planSourceItem rules d pe).2 ≠ SyncAction.DELETE := by
  unfold planSourceItem
  split
  · simp
  · split
    · split <;> simp
    · simp

/-- C3: EXCLUDE invariant.  A path classified EXCLUDE never appears in the
produced sync plan with action COPY or DELETE: whenever it appears, its
action is SKIP, for every source listing, destination listing and rule set,
even when the source and destination contents of that path differ. -/
theorem exclude_path_always_skip (s d : Tree) (rules : List Rule) (p : Path) (a : SyncAction)
    (hmem : (p, a) ∈ plan s d rules) (hex : classify rules p = Action.EXCLUDE) :
    a = SyncAction.SKIP := by
  unfold plan at hmem
  rcases List.mem_append.1 hmem with h | h
  · rcases List.mem_map.1 h with ⟨pe, _, heq⟩
    have hfst : pe.1 = p := by
      have h2 := congrArg Prod.fst heq
      simpa [planSourceItem_fst] using h2
    rw [← hfst] at hex
    simp [planSourceItem, hex] at heq
    exact heq.2.symm
  · rcases List.mem_map.1 h with ⟨pe, _, heq⟩
    have hfst : pe.1 = p := by
      have h2 := congrArg Prod.fst heq
      simpa [planDestItem_fst] using h2
    rw [← hfst] at hex
    simp [planDestItem, hex] at heq
    exact heq.2.symm

/-- Witness for C3: in a concrete pull plan the excluded auth-token path
appears exactly with action SKIP. -/
theorem exclude_path_always_skip_instance :
    (([".storage", "auth", "tokens.json"], SyncAction.SKIP) ∈ plan pullRemote [] pullRules)
    ∧ classify pullRules [".storage", "auth", "tokens.json"] = Action.EXCLUDE
    ∧ SyncAction.SKIP = SyncAction.SKIP := by
  refine ⟨by decide, by decide, ?_⟩
  exact exclude_path_always_skip pullRemote [] pullRules
    [".storage", "auth", "tokens.json"] SyncAction.SKIP (by decide) (by decide)

/-- C4: PROTECT invariant.  A path classified PROTECT never appears in the
plan with action DELETE even when absent from the source, and it may still
appear with action COPY: whenever it is present in the source with an entry
the destination does not already hold, the plan contains it as COPY (PROTECT
blocks deletion only, not creation or update). -/
theorem protect_blocks_delete_only (s d : Tree) (rules : List Rule) (p : Path)
    (hpr : classify rules p = Action.PROTECT) :
    (∀ a : SyncAction, (p, a) ∈ plan s d rules → a ≠ SyncAction.DELETE)
    ∧ (∀ e : Entry, (p, e) ∈ s → lookupEntry d p ≠ some e →
        (p, SyncAction.COPY) ∈ plan s d rules) := by
  constructor
  · intro a hmem
    unfold plan at hmem
    rcases List.mem_append.1 hmem with h | h
    · rcases List.mem_map.1 h with ⟨pe, _, heq⟩
      have h2 := congrArg Prod.snd heq
      simp only at h2
      rw [← h2]
      exact planSourceItem_snd_ne_delete rules d pe
    · rcases List.mem_map.1 h with ⟨pe, _, heq⟩
      have hfst : pe.1 = p := by
        have h2 := congrArg Prod.fst heq
        simpa [planDestItem_fst] using h2
      rw [← hfst] at hpr
      simp [planDestItem, hpr] at heq
      rw [← heq.2]
      simp
  · intro e hs hne
    have hitem : planSourceItem rules d (p, e) = (p, SyncAction.COPY) := by
      unfold planSourceItem
      rw [if_neg (by simp [hpr])]
      cases hlook : lookupEntry d p with
      | none => rfl
      | some e2 =>
        have : e ≠ e2 := by
          intro hcontra
          exact hne (by rw [hlook, hcontra])
        simp [this]
    unfold plan
    exact List.mem_append_left _ (List.mem_map.2 ⟨(p, e), hs, hitem⟩)

/-- Witness for C4: a concrete PROTECT path absent from the destination is
planned as COPY. -/
theorem protect_blocks_delete_only_instance :
    classify [{ pattern := ["db"], action := Action.PROTECT }] ["db", "v.sqlite"]
      = Action.PROTECT
    ∧ (["db", "v.sqlite"], SyncAction.COPY)
        ∈ plan [((["db", "v.sqlite"] : Path), file "new")] []
            [{ pattern := ["db"], action := Action.PROTECT }] := by
  refine ⟨by decide, ?_⟩
  exact (protect_blocks_delete_only [((["db", "v.sqlite"] : Path), file "new")] []
    [{ pattern := ["db"], action := Action.PROTECT }] ["db", "v.sqlite"] (by decide)).2
    (file "new") (by decide) (by decide)

theorem classify_allow_of_no_match (rules : List Rule) (p : Path)
    (h : ∀ r ∈ rules, ruleMatches r p = true → r.action = Action.ALLOW) :
    classify rules p = Action.ALLOW := by
  induction rules with
  | nil => rfl
  | cons r rest ih =>
    unfold classify
    by_cases hm : ruleMatches r p = true
    · rw [if_pos hm]
      exact h r (List.mem_cons_self r rest) hm
    · rw [if_neg hm]
      exact ih fun r2 hr2 hm2 => h r2 (List.mem_cons_of_mem r hr2) hm2

/-- C5: mirror/delete-extraneous guarantee.  Every path present in the
destination listing, absent from the source listing, and matched by no
EXCLUDE or PROTECT rule (every rule matching it is ALLOW) appears in the
plan with action DELETE. -/
theorem unmatched_dest_only_is_delete (s d : Tree) (rules : List Rule) (p : Path) (e : Entry)
    (hd : (p, e) ∈ d) (habs : lookupEntry s p = none)
    (hnr : ∀ r ∈ rules, ruleMatches r p = true → r.action = Action.ALLOW) :
    (p, SyncAction.DELETE) ∈ plan s d rules := by
  have hallow : classify rules p = Action.ALLOW := classify_allow_of_no_match rules p hnr
  have hitem : planDestItem rules (p, e) = (p, SyncAction.DELETE) := by
    unfold planDestItem
    simp [hallow]
  have hfilter : (p, e) ∈ d.filter (fun pe => (lookupEntry s pe.1).isNone) :=
    List.mem_filter.2 ⟨hd, by simp [habs]⟩
  unfold plan
  exact List.mem_append_right _ (List.mem_map.2 ⟨(p, e), hfilter, hitem⟩)

/-- Witness for C5: a concrete stale local file, absent from the pull source
and matched by no pull rule, is planned as DELETE. -/
theorem unmatched_dest_only_is_delete_instance :
    ((["stale_file.yaml"], file "should be deleted")
        ∈ [((["stale_file.yaml"] : Path), file "should be deleted")])
    ∧ lookupEntry pullRemote ["stale_file.yaml"] = none
    ∧ (["stale_file.yaml"], SyncAction.DELETE)
        ∈ plan pullRemote [((["stale_file.yaml"] : Path), file "should be deleted")] pullRules := by
  refine ⟨by decide, by decide, ?_⟩
  exact unmatched_dest_only_is_delete pullRemote
    [((["stale_file.yaml"] : Path), file "should be deleted")] pullRules
    ["stale_file.yaml"] (file "should be deleted") (by decide) (by decide) (by decide)

theorem lookupEntry_cons (q : Path) (e : Entry) (rest : Tree) (p : Path) :
    lookupEntry ((q, e) :: rest) p = if q = p then some e else lookupEntry rest p := rfl

theorem keys_cons (pe : Path × Entry) (rest : Tree) :
    keys (pe :: rest) = pe.1 :: keys rest := rfl

theorem lookupEntry_append_of_some (t1 t2 : Tree) (p : Path) (e : Entry)
    (h : lookupEntry t1 p = some e) : lookupEntry (t1 ++ t2) p = some e := by
  induction t1 with
  | nil => exact absurd h (by simp [lookupEntry])
  | cons qe rest ih =>
    rcases qe with ⟨q, e2⟩
    rw [lookupEntry_cons] at h
    show (if q = p then some e2 else lookupEntry (rest ++ t2) p) = some e
    by_cases hq : q = p
    · rw [if_pos hq] at h ⊢
      exact h
    · rw [if_neg hq] at h ⊢
      exact ih h

theorem lookupEntry_append_of_none (t1 t2 : Tree) (p : Path)
    (h : lookupEntry t1 p = none) : lookupEntry (t1 ++ t2) p = lookupEntry t2 p := by
  induction t1 with
  | nil => rfl
  | cons qe rest ih =>
    rcases qe with ⟨q, e2⟩
    rw [lookupEntry_cons] at h
    show (if q = p then some e2 else lookupEntry (rest ++ t2) p) = lookupEntry t2 p
    by_cases hq : q = p
    · rw [if_pos hq] at h
      exact absurd h (by simp)
    · rw [if_neg hq] at h ⊢
      exact ih h

theorem mem_keys_iff_lookup_isSome (t : Tree) (p : Path) :
    p ∈ keys t ↔ (lookupEntry t p).isSome = true := by
  induction t with
  | nil =>
    constructor
    · intro h
      exact absurd h (by simp [keys])
    · intro h
      exact absurd h (by simp [lookupEntry])
  | cons qe rest ih =>
    rcases qe with ⟨q, e⟩
    rw [keys_cons, lookupEntry_cons, List.mem_cons]
    by_cases hq : q = p
    · rw [if_pos hq]
      simp [hq]
    · rw [if_neg hq]
      constructor
      · intro h
        rcases h with h | h
        · exact absurd h.symm hq
        · exact ih.1 h
      · intro h
        exact Or.inr (ih.2 h)

theorem lookup_of_mem_nodup (t : Tree) (p : Path) (e : Entry)
    (hnd : (keys t).Nodup) (hmem : (p, e) ∈ t) : lookupEntry t p = some e := by
  induction t with
  | nil => exact absurd hmem (by simp)
  | cons qe rest ih =>
    rcases qe with ⟨q, e2⟩
    rw [keys_cons] at hnd
    have hnd1 := List.nodup_cons.1 hnd
    rw [lookupEntry_cons]
    rcases List.mem_cons.1 hmem with h | h
    · have hq : q = p := (congrArg Prod.fst h).symm
      have he : e2 = e := (congrArg Prod.snd h).symm
      rw [if_pos hq, he]
    · have hpk : p ∈ keys rest := List.mem_map_of_mem Prod.fst h
      have hq : q ≠ p := fun hcontra => hnd1.1 (hcontra ▸ hpk)
      rw [if_neg hq]
      exact ih hnd1.2 h

theorem lookup_removeKey_self (t : Tree) (p : Path) :
    lookupEntry (removeKey t p) p = none := by
  induction t with
  | nil => rfl
  | cons qe rest ih =>
    rcases qe with ⟨q, e⟩
    unfold removeKey
    by_cases hq : q = p
    · rw [if_pos hq]
      exact ih
    · rw [if_neg hq, lookupEntry_cons, if_neg hq]
      exact ih

theorem lookup_removeKey_ne (t : Tree) (p q : Path) (hne : q ≠ p) :
    lookupEntry (removeKey t q) p = lookupEntry t p := by
  induction t with
  | nil => rfl
  | cons re rest ih =>
    rcases re with ⟨r, e⟩
    unfold removeKey
    rw [lookupEntry_cons]
    by_cases hr : r = q
    · rw [if_pos hr, ih, if_neg (hr ▸ hne : r ≠ p)]
    · rw [if_neg hr, lookupEntry_cons]
      by_cases hrp : r = p
      · rw [if_pos hrp, if_pos hrp]
      · rw [if_neg hrp, if_neg hrp]
        exact ih

theorem lookup_updateKey_self (t : Tree) (p : Path) (e : Entry)
    (h : (lookupEntry t p).isSome = true) :
    lookupEntry (updateKey t p e) p = some e := by
  induction t with
  | nil => exact absurd h (by simp [lookupEntry])
  | cons re rest ih =>
    rcases re with ⟨r, e2⟩
    rw [lookupEntry_cons] at h
    unfold updateKey
    by_cases hr : r = p
    · rw [if_pos hr, lookupEntry_cons, if_pos rfl]
    · rw [if_neg hr] at h
      rw [if_neg hr, lookupEntry_cons, if_neg hr]
      exact ih h

theorem lookup_updateKey_ne (t : Tree) (p q : Path) (e : Entry) (hne : q ≠ p) :
    lookupEntry (updateKey t q e) p = lookupEntry t p := by
  induction t with
  | nil => rfl
  | cons re rest ih =>
    rcases re with ⟨r, e2⟩
    unfold updateKey
    rw [lookupEntry_cons]
    by_cases hr : r = q
    · rw [if_pos hr, lookupEntry_cons, if_neg hne, ih, if_neg (hr ▸ hne : r ≠ p)]
    · rw [if_neg hr, lookupEntry_cons]
      by_cases hrp : r = p
      · rw [if_pos hrp, if_pos hrp]
      · rw [if_neg hrp, if_neg hrp]
        exact ih

theorem lookup_upsert_self (t : Tree) (p : Path) (e : Entry) :
    lookupEntry (upsert t p e) p = some e := by
  unfold upsert
  by_cases h : (lookupEntry t p).isSome = true
  · rw [if_pos h]
    exact lookup_updateKey_self t p e h
  · rw [if_neg h]
    have hnone : lookupEntry t p = none := by
      cases hl : lookupEntry t p
      · rfl
      · rw [hl] at h
        exact absurd rfl h
    rw [lookupEntry_append_of_none t _ p hnone, lookupEntry_cons, if_pos rfl]

theorem lookup_upsert_ne (t : Tree) (p q : Path) (e : Entry) (hne : q ≠ p) :
    lookupEntry (upsert t q e) p = lookupEntry t p := by
  unfold upsert
  by_cases h : (lookupEntry t q).isSome = true
  · rw [if_pos h]
    exact lookup_updateKey_ne t p q e hne
  · rw [if_neg h]
    cases hl : lookupEntry t p with
    | some e2 => exact lookupEntry_append_of_some t _ p e2 hl
    | none =>
      rw [lookupEntry_append_of_none t _ p hl, lookupEntry_cons, if_neg hne]
      rfl

theorem lookup_applyItem_ne (s t : Tree) (p : Path) (qa : Path × SyncAction)
    (hne : qa.1 ≠ p) : lookupEntry (applyItem s t qa) p = lookupEntry t p := by
  rcases qa with ⟨q, a⟩
  cases a with
  | SKIP => rfl
  | DELETE => exact lookup_removeKey_ne t p q hne
  | COPY =>
    unfold applyItem
    cases hl : lookupEntry s q with
    | none => rfl
    | some e => exact lookup_upsert_ne t p q e hne

theorem lookup_applyItem_delete (s t : Tree) (p : Path) :
    lookupEntry (applyItem s t (p, SyncAction.DELETE)) p = none :=
  lookup_removeKey_self t p

theorem lookup_applyItem_copy (s t : Tree) (p : Path) (e : Entry)
    (hs : lookupEntry s p = some e) :
    lookupEntry (applyItem s t (p, SyncAction.COPY)) p = some e := by
  unfold applyItem
  rw [hs]
  exact lookup_upsert_self t p e

theorem lookup_foldl_no_key (s : Tree) (l : List (Path × SyncAction)) (t : Tree) (p : Path)
    (h : ∀ qa ∈ l, qa.1 ≠ p) :
    lookupEntry (l.foldl (applyItem s) t) p = lookupEntry t p := by
  induction l generalizing t with
  | nil => rfl
  | cons qa rest ih =>
    rw [List.foldl_cons]
    rw [ih (applyItem s t qa) (fun x hx => h x (List.mem_cons_of_mem qa hx))]
    exact lookup_applyItem_ne s t p qa (h qa (List.mem_cons_self qa rest))

theorem lookup_applyPlan_split (s t : Tree) (p : Path) (a : SyncAction)
    (l1 l2 : List (Path × SyncAction))
    (_h1 : ∀ qa ∈ l1, qa.1 ≠ p) (h2 : ∀ qa ∈ l2, qa.1 ≠ p) :
    lookupEntry (applyPlan (l1 ++ (p, a) :: l2) s t) p
      = lookupEntry (applyItem s (l1.foldl (applyItem s) t) (p, a)) p := by
  unfold applyPlan
  rw [List.foldl_append, List.foldl_cons]
  exact lookup_foldl_no_key s l2 _ p h2

theorem planSourceItem_cases (rules : List Rule) (d : Tree) (p : Path) (e : Entry)
    (hnex : classify rules p ≠ Action.EXCLUDE) :
    (planSourceItem rules d (p, e) = (p, SyncAction.SKIP) ∧ lookupEntry d p = some e)
    ∨ planSourceItem rules d (p, e) = (p, SyncAction.COPY) := by
  unfold planSourceItem
  rw [if_neg hnex]
  cases hlook : lookupEntry d p with
  | none => right; rfl
  | some e2 =>
    by_cases he : e = e2
    · left
      constructor
      · simp [he]
      · rw [he]
    · right
      simp [he]

theorem keys_append_cons (l1 l2 : Tree) (pe : Path × Entry) :
    keys (l1 ++ pe :: l2) = keys l1 ++ pe.1 :: keys l2 := by
  simp [keys]

theorem lookup_after_apply_source (s d : Tree) (rules : List Rule)
    (hs : (keys s).Nodup) (p : Path) (e : Entry)
    (hmem : (p, e) ∈ s) (hnex : classify rules p ≠ Action.EXCLUDE) :
    lookupEntry (applyPlan (plan s d rules) s d) p = some e := by
  obtain ⟨s1, s2, hsplit⟩ := List.append_of_mem hmem
  have hknd : (keys s1 ++ p :: keys s2).Nodup := by
    have h0 := hs
    rw [hsplit, keys_append_cons] at h0
    exact h0
  have hpnot : p ∉ keys s1 ++ keys s2 := (List.nodup_cons.1 (List.nodup_middle.1 hknd)).1
  have hp1 : ∀ q ∈ keys s1, q ≠ p := by
    intro q hq hcontra
    exact hpnot (List.mem_append_left _ (hcontra ▸ hq))
  have hp2 : ∀ q ∈ keys s2, q ≠ p := by
    intro q hq hcontra
    exact hpnot (List.mem_append_right _ (hcontra ▸ hq))
  have hlookup_s : lookupEntry s p = some e := lookup_of_mem_nodup s p e hs hmem
  have hplan : plan s d rules
      = s1.map (planSourceItem rules d)
        ++ planSourceItem rules d (p, e)
          :: (s2.map (planSourceItem rules d)
              ++ (d.filter (fun pe => (lookupEntry s pe.1).isNone)).map (planDestItem rules)) := by
    unfold plan
    rw [hsplit]
    simp [List.map_append]
  have h1 : ∀ qa ∈ s1.map (planSourceItem rules d), qa.1 ≠ p := by
    intro qa hqa
    rcases List.mem_map.1 hqa with ⟨pe, hpe, heq⟩
    rw [← heq, planSourceItem_fst]
    exact hp1 pe.1 (List.mem_map_of_mem Prod.fst hpe)
  have h2 : ∀ qa ∈ s2.map (planSourceItem rules d)
      ++ (d.filter (fun pe => (lookupEntry s pe.1).isNone)).map (planDestItem rules), qa.1 ≠ p := by
    intro qa hqa
    rcases List.mem_append.1 hqa with h | h
    · rcases List.mem_map.1 h with ⟨pe, hpe, heq⟩
      rw [← heq, planSourceItem_fst]
      exact hp2 pe.1 (List.mem_map_of_mem Prod.fst hpe)
    · rcases List.mem_map.1 h with ⟨pe, hpe, heq⟩
      rw [← heq, planDestItem_fst]
      intro hcontra
      have hnone := (List.mem_filter.1 hpe).2
      rw [hcontra] at hnone
      rw [hlookup_s] at hnone
      simp at hnone
  rcases planSourceItem_cases rules d p e hnex with ⟨hitem, hlook⟩ | hitem
  · rw [hplan, hitem]
    rw [lookup_applyPlan_split s d p SyncAction.SKIP _ _ h1 h2]
    show lookupEntry (List.foldl (applyItem s) d (s1.map (planSourceItem rules d))) p = some e
    rw [lookup_foldl_no_key s _ d p h1]
    exact hlook
  · rw [hplan, hitem]
    rw [lookup_applyPlan_split s d p SyncAction.COPY _ _ h1 h2]
    exact lookup_applyItem_copy s _ p e hlookup_s

theorem lookup_after_apply_dest_allow (s d : Tree) (rules : List Rule)
    (hd : (keys d).Nodup) (p : Path)
    (habs : lookupEntry s p = none) (hallow : classify rules p = Action.ALLOW) :
    lookupEntry (applyPlan (plan s d rules) s d) p = none := by
  have hnps : p ∉ keys s := by
    rw [mem_keys_iff_lookup_isSome, habs]
    simp
  by_cases hin : p ∈ keys d
  · have hin2 : p ∈ List.map Prod.fst d := hin
    rcases List.mem_map.1 hin2 with ⟨x, hx, hfx⟩
    obtain ⟨da, db, hdsplit⟩ := List.append_of_mem hx
    have hknd : (keys da ++ p :: keys db).Nodup := by
      have h0 := hd
      rw [hdsplit, keys_append_cons, hfx] at h0
      exact h0
    have hpnot : p ∉ keys da ++ keys db := (List.nodup_cons.1 (List.nodup_middle.1 hknd)).1
    have hpda : ∀ q ∈ keys da, q ≠ p := by
      intro q hq hcontra
      exact hpnot (List.mem_append_left _ (hcontra ▸ hq))
    have hpdb : ∀ q ∈ keys db, q ≠ p := by
      intro q hq hcontra
      exact hpnot (List.mem_append_right _ (hcontra ▸ hq))
    have hpredx : ((lookupEntry s x.1).isNone) = true := by
      rw [hfx, habs]
      rfl
    have hfilter : d.filter (fun pe => (lookupEntry s pe.1).isNone)
        = da.filter (fun pe => (lookupEntry s pe.1).isNone)
          ++ x :: db.filter (fun pe => (lookupEntry s pe.1).isNone) := by
      rw [hdsplit, List.filter_append]
      congr 1
      exact List.filter_cons_of_pos
        (show ((fun pe : Path × Entry => (lookupEntry s pe.1).isNone) x) = true from hpredx)
    have hgx : planDestItem rules x = (p, SyncAction.DELETE) := by
      unfold planDestItem
      rw [hfx, hallow]
    have hplan : plan s d rules
        = (s.map (planSourceItem rules d)
            ++ (da.filter (fun pe => (lookupEntry s pe.1).isNone)).map (planDestItem rules))
          ++ (p, SyncAction.DELETE)
            :: (db.filter (fun pe => (lookupEntry s pe.1).isNone)).map (planDestItem rules) := by
      unfold plan
      rw [hfilter, List.map_append, List.map_cons, hgx, ← List.append_assoc]
    have h1 : ∀ qa ∈ s.map (planSourceItem rules d)
        ++ (da.filter (fun pe => (lookupEntry s pe.1).isNone)).map (planDestItem rules),
        qa.1 ≠ p := by
      intro qa hqa
      rcases List.mem_append.1 hqa with h | h
      · rcases List.mem_map.1 h with ⟨pe, hpe, heq⟩
        rw [← heq, planSourceItem_fst]
        intro hcontra
        exact hnps (hcontra ▸ List.mem_map_of_mem Prod.fst hpe)
      · rcases List.mem_map.1 h with ⟨pe, hpe, heq⟩
        rw [← heq, planDestItem_fst]
        exact hpda pe.1 (List.mem_map_of_mem Prod.fst (List.mem_of_mem_filter hpe))
    have h2 : ∀ qa ∈ (db.filter (fun pe => (lookupEntry s pe.1).isNone)).map (planDestItem rules),
        qa.1 ≠ p := by
      intro qa hqa
      rcases List.mem_map.1 hqa with ⟨pe, hpe, heq⟩
      rw [← heq, planDestItem_fst]
      exact hpdb pe.1 (List.mem_map_of_mem Prod.fst (List.mem_of_mem_filter hpe))
    rw [hplan, lookup_applyPlan_split s d p SyncAction.DELETE _ _ h1 h2]
    exact lookup_applyItem_delete s _ p
  · have hall : ∀ qa ∈ plan s d rules, qa.1 ≠ p := by
      intro qa hqa
      unfold plan at hqa
      rcases List.mem_append.1 hqa with h | h
      · rcases List.mem_map.1 h with ⟨pe, hpe, heq⟩
        rw [← heq, planSourceItem_fst]
        intro hcontra
        exact hnps (hcontra ▸ List.mem_map_of_mem Prod.fst hpe)
      · rcases List.mem_map.1 h with ⟨pe, hpe, heq⟩
        rw [← heq, planDestItem_fst]
        intro hcontra
        exact hin (hcontra ▸ List.mem_map_of_mem Prod.fst (List.mem_of_mem_filter hpe))
    unfold applyPlan
    rw [lookup_foldl_no_key s _ d p hall]
    cases hl : lookupEntry d p with
    | none => rfl
    | some e =>
      exfalso
      exact hin ((mem_keys_iff_lookup_isSome d p).2 (by rw [hl]; rfl))

/-- C6: idempotence (convergence).  With unique-key tree listings, applying
the computed sync plan once and re-planning the source against the resulting
destination with the identical rule set yields a plan in which every entry
is SKIP — a second run performs no COPY and no DELETE. -/
theorem replan_after_apply_is_all_skip (s d : Tree) (rules : List Rule)
    (hs : (keys s).Nodup) (hd : (keys d).Nodup) (p : Path) (a : SyncAction)
    (hmem : (p, a) ∈ plan s (applyPlan (plan s d rules) s d) rules) :
    a = SyncAction.SKIP := by
  set dNew := applyPlan (plan s d rules) s d with hdNew
  unfold plan at hmem
  rcases List.mem_append.1 hmem with h | h
  · rcases List.mem_map.1 h with ⟨pe, hpe, heq⟩
    have hfst : pe.1 = p := by
      have h2 := congrArg Prod.fst heq
      simpa [planSourceItem_fst] using h2
    by_cases hex : classify rules p = Action.EXCLUDE
    · rw [← hfst] at hex
      simp [planSourceItem, hex] at heq
      exact heq.2.symm
    · have hmem_s : (p, pe.2) ∈ s := by
        have hpe2 : (p, pe.2) = pe := by
          rw [← hfst]
        exact hpe2 ▸ hpe
      have hlook : lookupEntry dNew p = some pe.2 := by
        rw [hdNew]
        exact lookup_after_apply_source s d rules hs p pe.2 hmem_s hex
      rw [← hfst] at hex hlook
      unfold planSourceItem at heq
      rw [if_neg hex, hlook] at heq
      simp at heq
      exact heq.2.symm
  · rcases List.mem_map.1 h with ⟨pe, hpe, heq⟩
    have hfst : pe.1 = p := by
      have h2 := congrArg Prod.fst heq
      simpa [planDestItem_fst] using h2
    have hpe2 := List.mem_filter.1 hpe
    have habs : lookupEntry s p = none := by
      have h3 := hpe2.2
      rw [hfst] at h3
      exact Option.isNone_iff_eq_none.1 h3
    have hnallow : classify rules p ≠ Action.ALLOW := by
      intro hallow
      have hnone : lookupEntry dNew p = none := by
        rw [hdNew]
        exact lookup_after_apply_dest_allow s d rules hd p habs hallow
      have hin : p ∈ keys dNew := hfst ▸ List.mem_map_of_mem Prod.fst hpe2.1
      rw [mem_keys_iff_lookup_isSome, hnone] at hin
      exact absurd hin (by simp)
    cases hcl : classify rules pe.1 with
    | ALLOW =>
      rw [hfst] at hcl
      exact absurd hcl hnallow
    | EXCLUDE =>
      simp [planDestItem, hcl] at heq
      exact heq.2.symm
    | PROTECT =>
      simp [planDestItem, hcl] at heq
      exact heq.2.symm

/-- Witness for C6: in the concrete push scenario, re-planning after the
apply yields SKIP for the config file that the first run copied. -/
theorem replan_after_apply_is_all_skip_instance :
    (keys pushLocal).Nodup ∧ (keys pushRemote).Nodup
    ∧ ((["configuration.yaml"], SyncAction.SKIP)
        ∈ plan pushLocal (applyPlan (plan pushLocal pushRemote pushRules) pushLocal pushRemote)
            pushRules)
    ∧ SyncAction.SKIP = SyncAction.SKIP := by
  refine ⟨by decide, by decide, by decide, ?_⟩
  exact replan_after_apply_is_all_skip pushLocal pushRemote pushRules (by decide) (by decide)
    ["configuration.yaml"] SyncAction.SKIP (by decide)

end HASync

namespace ReloadTool

theorem applyEnvLine_no_assign (env : Env) (l key : String)
    (h : assignsKey l key = false) : applyEnvLine env l key = env key := by
  unfold applyEnvLine
  cases hp : parseEnvLine l with
  | none => rfl
  | some kv =>
    have hne : kv.1 ≠ key := by
      intro hc
      have h2 : assignsKey l key = true := by
        unfold assignsKey
        rw [hp]
        show (kv.1 == key) = true
        rw [hc]
        simp
      rw [h2] at h
      exact absurd h (by simp)
    show (if key = kv.1 then some kv.2 else env key) = env key
    rw [if_neg (fun hc : key = kv.1 => hne hc.symm)]

theorem load_env_lines_no_assign (lines : List String) (env : Env) (key : String)
    (h : ∀ l ∈ lines, assignsKey l key = false) :
    load_env_lines lines env key = env key := by
  induction lines generalizing env with
  | nil => rfl
  | cons l rest ih =>
    show (List.foldl applyEnvLine (applyEnvLine env l) rest) key = env key
    have ih2 := ih (applyEnvLine env l) (fun x hx => h x (List.mem_cons_of_mem l hx))
    exact ih2.trans (applyEnvLine_no_assign env l key (h l (List.mem_cons_self l rest)))

theorem load_env_file_no_assign (file : Option (List String)) (env : Env) (key : String)
    (henv : env key = none)
    (hfile : ∀ l ∈ linesOf file, assignsKey l key = false) :
    load_env_file file env key = none := by
  cases file with
  | none => exact henv
  | some lines =>
    show load_env_lines lines env key = none
    rw [load_env_lines_no_assign lines env key hfile]
    exact henv

/-- C7: missing-credential hard error.  When `HA_TOKEN` is absent from the
environment and assigned by no line of the `.env` source, `reload_config`
returns an unsuccessful result and issues no HTTP request of any kind. -/
theorem missing_token_is_hard_error (envInit : Env) (file : Option (List String))
    (http : String → HttpOutcome)
    (henv : envInit "HA_TOKEN" = none)
    (hfile : ∀ l ∈ linesOf file, assignsKey l "HA_TOKEN" = false) :
    (reload_config envInit file http).requests = []
    ∧ (reload_config envInit file http).result = false := by
  have htok : tokenOf envInit file = "" := by
    unfold tokenOf getenv
    rw [load_env_file_no_assign file envInit "HA_TOKEN" henv hfile]
    rfl
  unfold reload_config
  rw [if_pos htok]
  exact ⟨rfl, rfl⟩

/-- Witness for C7: a concrete run with no `HA_TOKEN` anywhere makes no
request and fails, whatever the network would have answered. -/
theorem missing_token_is_hard_error_instance :
    envEmpty "HA_TOKEN" = none
    ∧ (∀ l ∈ linesOf (some ["# comment", "HA_URL=http://x"]), assignsKey l "HA_TOKEN" = false)
    ∧ (reload_config envEmpty (some ["# comment", "HA_URL=http://x"])
        (fun _ => HttpOutcome.Timeout)).requests = [] := by
  refine ⟨rfl, by decide, ?_⟩
  exact (missing_token_is_hard_error envEmpty (some ["# comment", "HA_URL=http://x"])
    (fun _ => HttpOutcome.Timeout) rfl (by decide)).1

theorem runServices_cons_response (http : String → HttpOutcome) (base name service : String)
    (rest : List (String × String)) (allOk : Bool) (code : Nat) (text : String)
    (h : http (serviceUrl base service) = HttpOutcome.Response code text) :
    runServices http base ((name, service) :: rest) allOk
      = (serviceUrl base service :: (runServices http base rest (allOk && (code == 200))).1,
         (name, code == 200) :: (runServices http base rest (allOk && (code == 200))).2.1,
         (runServices http base rest (allOk && (code == 200))).2.2) := by
  rw [runServices.eq_2, h]

theorem runServices_cons_timeout (http : String → HttpOutcome) (base name service : String)
    (rest : List (String × String)) (allOk : Bool)
    (h : http (serviceUrl base service) = HttpOutcome.Timeout) :
    runServices http base ((name, service) :: rest) allOk
      = ([serviceUrl base service], [], Except.error ReloadExn.timeout) := by
  rw [runServices.eq_2, h]

theorem runServices_cons_conn (http : String → HttpOutcome) (base name service : String)
    (rest : List (String × String)) (allOk : Bool)
    (h : http (serviceUrl base service) = HttpOutcome.ConnError) :
    runServices http base ((name, service) :: rest) allOk
      = ([serviceUrl base service], [], Except.error ReloadExn.connError) := by
  rw [runServices.eq_2, h]

theorem runServices_cons_other (http : String → HttpOutcome) (base name service : String)
    (rest : List (String × String)) (allOk : Bool)
    (h : http (serviceUrl base service) = HttpOutcome.OtherError) :
    runServices http base ((name, service) :: rest) allOk
      = ([serviceUrl base service], [], Except.error ReloadExn.otherError) := by
  rw [runServices.eq_2, h]

theorem runServices_requests_mem (http : String → HttpOutcome) (base : String) :
    ∀ (eps : List (String × String)) (acc : Bool) (u : String),
      u ∈ (runServices http base eps acc).1 → ∃ p ∈ eps, u = serviceUrl base p.2 := by
  intro eps
  induction eps with
  | nil =>
    intro acc u h
    exact absurd h (by simp [runServices])
  | cons pe rest ih =>
    intro acc u h
    rcases pe with ⟨name, service⟩
    cases hh : http (serviceUrl base service) with
    | Response code text =>
      rw [runServices_cons_response http base name service rest acc code text hh] at h
      rcases List.mem_cons.1 h with h1 | h1
      · exact ⟨(name, service), List.mem_cons_self _ _, h1⟩
      · rcases ih (acc && (code == 200)) u h1 with ⟨p, hp, hu⟩
        exact ⟨p, List.mem_cons_of_mem _ hp, hu⟩
    | Timeout =>
      rw [runServices_cons_timeout http base name service rest acc hh] at h
      exact ⟨(name, service), List.mem_cons_self _ _, List.mem_singleton.1 h⟩
    | ConnError =>
      rw [runServices_cons_conn http base name service rest acc hh] at h
      exact ⟨(name, service), List.mem_cons_self _ _, List.mem_singleton.1 h⟩
    | OtherError =>
      rw [runServices_cons_other http base name service rest acc hh] at h
      exact ⟨(name, service), List.mem_cons_self _ _, List.mem_singleton.1 h⟩

theorem runServices_requests_ne_nil (http : String → HttpOutcome) (base : String)
    (eps : List (String × String)) (acc : Bool) (hne : eps ≠ []) :
    (runServices http base eps acc).1 ≠ [] := by
  cases eps with
  | nil => exact absurd rfl hne
  | cons pe rest =>
    rcases pe with ⟨name, service⟩
    cases hh : http (serviceUrl base service) with
    | Response code text =>
      rw [runServices_cons_response http base name service rest acc code text hh]
      simp
    | Timeout =>
      rw [runServices_cons_timeout http base name service rest acc hh]
      simp
    | ConnError =>
      rw [runServices_cons_conn http base name service rest acc hh]
      simp
    | OtherError =>
      rw [runServices_cons_other http base name service rest acc hh]
      simp

theorem runServices_ok_true (http : String → HttpOutcome) (base : String) :
    ∀ (eps : List (String × String)) (acc : Bool),
      (runServices http base eps acc).2.2 = Except.ok true →
      acc = true ∧ ∀ p ∈ eps, ∃ text, http (serviceUrl base p.2) = HttpOutcome.Response 200 text := by
  intro eps
  induction eps with
  | nil =>
    intro acc h
    have h2 : (Except.ok acc : Except ReloadExn Bool) = Except.ok true := h
    constructor
    · injection h2
    · intro p hp
      exact absurd hp (by simp)
  | cons pe rest ih =>
    intro acc h
    rcases pe with ⟨name, service⟩
    cases hh : http (serviceUrl base service) with
    | Response code text =>
      rw [runServices_cons_response http base name service rest acc code text hh] at h
      rcases ih (acc && (code == 200)) h with ⟨hacc, hall⟩
      have hcode : (code == 200) = true := by
        cases hc : (code == 200)
        · rw [hc] at hacc
          exact absurd hacc (by simp)
        · rfl
      have hacc2 : acc = true := by
        cases ha : acc
        · rw [ha] at hacc
          exact absurd hacc (by simp)
        · rfl
      refine ⟨hacc2, ?_⟩
      intro p hp
      rcases List.mem_cons.1 hp with h1 | h1
      · refine ⟨text, ?_⟩
        rw [h1]
        have hc200 : code = 200 := eq_of_beq hcode
        rw [hc200] at hh
        exact hh
      · exact hall p h1
    | Timeout =>
      rw [runServices_cons_timeout http base name service rest acc hh] at h
      exact absurd h (by simp)
    | ConnError =>
      rw [runServices_cons_conn http base name service rest acc hh] at h
      exact absurd h (by simp)
    | OtherError =>
      rw [runServices_cons_other http base name service rest acc hh] at h
      exact absurd h (by simp)

theorem runServices_all_responses (http : String → HttpOutcome) (base : String)
    (st : String → Nat) (tx : String → String) :
    ∀ (eps : List (String × String)) (acc : Bool),
      (∀ p ∈ eps, http (serviceUrl base p.2) = HttpOutcome.Response (st p.2) (tx p.2)) →
      (runServices http base eps acc).2.1 = eps.map (fun p => (p.1, st p.2 == 200))
      ∧ (runServices http base eps acc).2.2
          = Except.ok (acc && eps.all (fun p => st p.2 == 200)) := by
  intro eps
  induction eps with
  | nil =>
    intro acc hresp
    constructor
    · rfl
    · show (Except.ok acc : Except ReloadExn Bool) = _
      simp
  | cons pe rest ih =>
    intro acc hresp
    rcases pe with ⟨name, service⟩
    have hh : http (serviceUrl base service) = HttpOutcome.Response (st service) (tx service) :=
      hresp (name, service) (List.mem_cons_self _ _)
    rw [runServices_cons_response http base name service rest acc (st service) (tx service) hh]
    have ih2 := ih (acc && (st service == 200)) (fun p hp => hresp p (List.mem_cons_of_mem _ hp))
    constructor
    · show (name, st service == 200)
          :: (runServices http base rest (acc && (st service == 200))).2.1 = _
      rw [ih2.1]
      rfl
    · show (runServices http base rest (acc && (st service == 200))).2.2 = _
      rw [ih2.2, List.all_cons, Bool.and_assoc]

/-- C9: implicit default URL.  When `HA_TOKEN` is usable but `HA_URL` is
absent from the environment and assigned by no line of the `.env` source,
`reload_config` does not fail for lack of a URL: it issues at least one
request, and every request it issues goes to the fixed default base URL
`http://homeassistant.local:8123`. -/
theorem missing_url_uses_default (envInit : Env) (file : Option (List String))
    (http : String → HttpOutcome)
    (henv : envInit "HA_URL" = none)
    (hfile : ∀ l ∈ linesOf file, assignsKey l "HA_URL" = false)
    (htok : tokenOf envInit file ≠ "") :
    (reload_config envInit file http).requests ≠ []
    ∧ ∀ u ∈ (reload_config envInit file http).requests,
        ∃ p ∈ reload_endpoints, u = serviceUrl defaultHaUrl p.2 := by
  have hurl : haUrlOf envInit file = defaultHaUrl := by
    unfold haUrlOf getenv
    rw [load_env_file_no_assign file envInit "HA_URL" henv hfile]
    rfl
  unfold reload_config
  rw [if_neg htok, hurl]
  constructor
  · show (runServices http defaultHaUrl reload_endpoints true).1 ≠ []
    exact runServices_requests_ne_nil http defaultHaUrl reload_endpoints true (by simp [reload_endpoints])
  · intro u hu
    exact runServices_requests_mem http defaultHaUrl reload_endpoints true u hu

/-- Witness for C9: with only `HA_TOKEN` set and no `.env` file, a run
against an all-200 network issues requests. -/
theorem missing_url_uses_default_instance :
    envTokenOnly "HA_URL" = none
    ∧ tokenOf envTokenOnly none ≠ ""
    ∧ (reload_config envTokenOnly none (fun _ => HttpOutcome.Response 200 "ok")).requests ≠ [] := by
  refine ⟨rfl, by decide, ?_⟩
  exact (missing_url_uses_default envTokenOnly none (fun _ => HttpOutcome.Response 200 "ok")
    rfl (by simp [linesOf]) (by decide)).1

/-- Counterexample for C8: with a valid token and a network where every post
times out, the first service's request is issued but no service ever gets a
per-service success/failure report — the run aborts with overall failure, so
it is not the case that each of the four fixed services independently
reports its success or failure under every combination of outcomes. -/
theorem reload_timeout_aborts_reporting :
    (reload_config envTokenOnly none (fun _ => HttpOutcome.Timeout)).reports = []
    ∧ (reload_config envTokenOnly none (fun _ => HttpOutcome.Timeout)).result = false
    ∧ (reload_config envTokenOnly none (fun _ => HttpOutcome.Timeout)).requests.length = 1
    ∧ reload_endpoints.length = 4 := by
  decide

/-- C8 (amended): the reload operation never propagates an exception and its
overall boolean is true only when every service succeeded; the per-service
independent reporting holds for HTTP-response outcomes: when every service
request returns an HTTP response, each of the four named services is
reported with its own success (status 200) or failure, and the overall
boolean is the conjunction of the per-service successes; a timeout or
connection failure instead aborts the run with overall failure. -/
theorem reload_reports_and_aggregates (envInit : Env) (file : Option (List String))
    (http : String → HttpOutcome) (st : String → Nat) (tx : String → String)
    (htok : tokenOf envInit file ≠ "")
    (hresp : ∀ p ∈ reload_endpoints,
        http (serviceUrl (haUrlOf envInit file) p.2) = HttpOutcome.Response (st p.2) (tx p.2)) :
    (reload_config envInit file http).reports
        = reload_endpoints.map (fun p => (p.1, st p.2 == 200))
    ∧ ((reload_config envInit file http).result = true
        ↔ ∀ p ∈ reload_endpoints, st p.2 = 200)
    ∧ ∀ http2 : String → HttpOutcome,
        (reload_config envInit file http2).result = true →
        ∀ p ∈ reload_endpoints, ∃ text,
          http2 (serviceUrl (haUrlOf envInit file) p.2) = HttpOutcome.Response 200 text := by
  have hD := runServices_all_responses http (haUrlOf envInit file) st tx reload_endpoints true hresp
  refine ⟨?_, ?_, ?_⟩
  · unfold reload_config
    rw [if_neg htok]
    exact hD.1
  · unfold reload_config
    rw [if_neg htok]
    show (match (runServices http (haUrlOf envInit file) reload_endpoints true).2.2 with
      | Except.ok b => b
      | Except.error _ => false) = true ↔ _
    rw [hD.2]
    simp [List.all_eq_true]
  · intro http2 hres
    unfold reload_config at hres
    rw [if_neg htok] at hres
    have hres2 : (match (runServices http2 (haUrlOf envInit file) reload_endpoints true).2.2 with
      | Except.ok b => b
      | Except.error _ => false) = true := hres
    cases hm : (runServices http2 (haUrlOf envInit file) reload_endpoints true).2.2 with
    | ok b =>
      rw [hm] at hres2
      have hb : b = true := hres2
      rw [hb] at hm
      exact (runServices_ok_true http2 (haUrlOf envInit file) reload_endpoints true hm).2
    | error e =>
      rw [hm] at hres2
      exact absurd hres2 (by simp)

/-- Witness for C8 (amended): a concrete all-200 run reports success for
every one of the four services. -/
theorem reload_reports_and_aggregates_instance :
    tokenOf envTokenOnly none ≠ ""
    ∧ (∀ p ∈ reload_endpoints,
        (fun _ => HttpOutcome.Response 200 "ok") (serviceUrl (haUrlOf envTokenOnly none) p.2)
          = HttpOutcome.Response ((fun _ => 200) p.2) ((fun _ => "ok") p.2))
    ∧ (reload_config envTokenOnly none (fun _ => HttpOutcome.Response 200 "ok")).reports
        = reload_endpoints.map (fun p => (p.1, (200 == 200))) := by
  refine ⟨by decide, by decide, ?_⟩
  exact (reload_reports_and_aggregates envTokenOnly none
    (fun _ => HttpOutcome.Response 200 "ok") (fun _ => 200) (fun _ => "ok")
    (by decide) (by decide)).1

theorem breakAtEq_eq_none (cs : List Char) (h : '=' ∉ cs) : breakAtEq cs = none := by
  induction cs with
  | nil => rfl
  | cons c rest ih =>
    unfold breakAtEq
    have hc : c ≠ '=' := fun hcontra => h (hcontra ▸ List.mem_cons_self c rest)
    rw [if_neg hc, ih (fun hm => h (List.mem_cons_of_mem c hm))]

theorem mem_of_mem_dropWhile (p : Char → Bool) (cs : List Char) (c : Char)
    (h : c ∈ cs.dropWhile p) : c ∈ cs := by
  induction cs with
  | nil => exact absurd h (by simp)
  | cons a rest ih =>
    by_cases hp : p a = true
    · have hd : (a :: rest).dropWhile p = rest.dropWhile p := by
        simp [List.dropWhile, hp]
      rw [hd] at h
      exact List.mem_cons_of_mem a (ih h)
    · have hp2 : p a = false := by
        cases hpa : p a
        · rfl
        · exact absurd hpa hp
      have hd : (a :: rest).dropWhile p = a :: rest := by
        simp [List.dropWhile, hp2]
      rw [hd] at h
      exact h

theorem mem_of_mem_pyStrip (c : Char) (cs : List Char) (h : c ∈ pyStrip cs) : c ∈ cs := by
  unfold pyStrip at h
  rw [List.mem_reverse] at h
  have h2 := mem_of_mem_dropWhile Char.isWhitespace _ c h
  rw [List.mem_reverse] at h2
  exact mem_of_mem_dropWhile Char.isWhitespace cs c h2

theorem parseEnvLine_eq (line : String) :
    parseEnvLine line
      = if (pyStrip line.toList).isEmpty then none
        else if (pyStrip line.toList).headD ' ' = '#' then none
        else
          match breakAtEq (pyStrip line.toList) with
          | none => none
          | some (k, v) =>
            some (String.mk (pyStrip k),
                  String.mk (stripChar squote (stripChar dquote (pyStrip v)))) := rfl

theorem parseEnvLine_ignores (line : String)
    (h : pyStrip line.toList = []
        ∨ (pyStrip line.toList).headD ' ' = '#'
        ∨ line.toList.contains '=' = false) :
    parseEnvLine line = none := by
  rw [parseEnvLine_eq]
  rcases h with h | h | h
  · rw [h]
    simp
  · rw [h]
    simp
  · have hnm : '=' ∉ line.toList := by simpa using h
    have hb : breakAtEq (pyStrip line.toList) = none :=
      breakAtEq_eq_none _ (fun hm => hnm (mem_of_mem_pyStrip _ _ hm))
    rw [hb]
    simp

/-- C10: environment frame of `load_env_file`.  It changes no environment
variable other than the keys assigned by some line of the `.env` file; with
no `.env` file it returns the environment unchanged; and a blank line, a
line starting with `#`, or a line without an `=` character is ignored (its
processing is the identity on the environment). -/
theorem load_env_file_frame (lines : List String) (env : Env) (key : String) (line : String)
    (hkey : ∀ l ∈ lines, assignsKey l key = false)
    (hline : pyStrip line.toList = []
        ∨ (pyStrip line.toList).headD ' ' = '#'
        ∨ line.toList.contains '=' = false) :
    load_env_file (some lines) env key = env key
    ∧ load_env_file none env = env
    ∧ applyEnvLine env line = env := by
  refine ⟨load_env_lines_no_assign lines env key hkey, rfl, ?_⟩
  unfold applyEnvLine
  rw [parseEnvLine_ignores line hline]

/-- Witness for C10: a `.env` file assigning only `OTHER` leaves `HA_TOKEN`
untouched, and a comment line is ignored. -/
theorem load_env_file_frame_instance :
    (∀ l ∈ ["OTHER=1"], assignsKey l "HA_TOKEN" = false)
    ∧ (pyStrip ("# comment").toList = []
        ∨ (pyStrip ("# comment").toList).headD ' ' = '#'
        ∨ ("# comment").toList.contains '=' = false)
    ∧ load_env_file (some ["OTHER=1"]) envEmpty "HA_TOKEN" = envEmpty "HA_TOKEN" := by
  refine ⟨by decide, by decide, ?_⟩
  exact (load_env_file_frame ["OTHER=1"] envEmpty "HA_TOKEN" "# comment"
    (by decide) (by decide)).1

end ReloadTool
